import Mathlib

/-!
Shallow embedding of the resilient invocation layer of the LyuGitVSCodeEx
extension: the retry orchestrator and transient-failure classifier
(`src/git/gitBase.ts`, `src/git/repoSync.ts`), the process executor
(`GitBase.runGitCommand`), the GitHub request client and its progress
wrapper (`src/git/githubApi.ts`), the workspace target resolver
(`WorkspaceManager` in `src/git/workspaceManager.ts`), the remote URL
parser (`GitHubApi.parseGitHubUrl`), and the saved-credential store
(`src/git/secretStorage.ts`).

Asynchronous effects are modelled by explicit parameters: a unit of work is
a function from the attempt index to its outcome, the cooperative
cancellation flag is the attempt index from which it reads true, and the
user's quick-pick choice is an oracle over the presented items.
-/

/-! ### Strings: substring matching (embeds JavaScript `String.includes`) -/

/-- Does the character list start with the given pattern? -/
def strStartsWith : List Char → List Char → Bool
  | _, [] => true
  | [], _ :: _ => false
  | c :: cs, p :: ps => c == p && strStartsWith cs ps

/-- Does the pattern occur as a contiguous sublist (JavaScript `includes`)? -/
def containsSub : List Char → List Char → Bool
  | [], pat => strStartsWith [] pat
  | c :: cs, pat => strStartsWith (c :: cs) pat || containsSub cs pat

/-! ### Transient-failure classifier

Embeds the test in `GitBase.runGitCommandWithRetry` (gitBase.ts:100-101)
and its verbatim copy in `RepoSync.runGitCommandWithRetry`
(repoSync.ts:54-55):
`msg.includes('timeout') || msg.includes('ssl') || msg.includes('network')
 || msg.includes('unable to access')` where `msg` is the lowercased
failure message. -/

/-- Classifier: the lowercased message contains one of the four transient
substrings. (JavaScript `toLowerCase` agrees with `Char.toLower` on the
ASCII range, which covers the four patterns.) -/
def isTransientMsg (message : String) : Bool :=
  let msg := message.data.map Char.toLower
  containsSub msg "timeout".data || containsSub msg "ssl".data ||
    containsSub msg "network".data || containsSub msg "unable to access".data

/-! ### Process executor (`GitBase.runGitCommand`, gitBase.ts:48-65) -/

/-- JavaScript `a || b` on a possibly-absent string: an absent or empty
string falls through to the default. -/
def jsOrStr (a : Option String) (b : String) : String :=
  match a with
  | some s => if s.isEmpty then b else s
  | none => b

/-- Outcome of one `execAsync` child-process invocation: success with
captured stdout, or a failure object with its `killed` flag and optional
`stderr` / `message` fields. -/
inductive ExecOutcome where
  | success (stdout : String)
  | failed (killed : Bool) (stderr : Option String) (message : Option String)
deriving DecidableEq

/-- Embeds `GitBase.runGitCommand`: a killed (timed-out) process raises the
fixed timeout message; otherwise the error text is `stderr || message ||
'Unknown error'`; success returns trimmed stdout. -/
def runGitCommand : ExecOutcome → Except String String
  | .success stdout => .ok stdout.trim
  | .failed killed stderr message =>
    if killed then .error "操作超时，请检查网络连接"
    else .error (jsOrStr stderr (jsOrStr message "Unknown error"))

/-! ### Retry orchestrator for git commands
(`GitBase.runGitCommandWithRetry`, gitBase.ts:91-111; identical code in
`RepoSync.runGitCommandWithRetry`, repoSync.ts:45-65) -/

/-- Result of a retry-wrapped invocation: the value or the propagated
error (`Except.error none` models `throw lastError` with `lastError` still
`null`, reachable only when `retryCount = 0`), together with the number of
attempts performed and the total inter-attempt sleep. -/
structure RetryResult (α : Type) where
  result : Except (Option String) α
  attempts : Nat
  sleepTotal : Nat

/-- Loop of `runGitCommandWithRetry` from iteration `i` with `fuel`
remaining iterations (the wrapper passes `fuel = retryCount`, `i = 0`, so
`i + fuel = retryCount` throughout). A failure is retried exactly when its
message is classified transient and `i < retryCount - 1`; the retry sleeps
`retryDelay` first. -/
def gitRetryAux (retryCount retryDelay : Nat) (work : Nat → Except String α) :
    Nat → Nat → Option String → RetryResult α
  | 0, _, lastError => ⟨.error lastError, 0, 0⟩
  | fuel + 1, i, _ =>
    match work i with
    | .ok a => ⟨.ok a, 1, 0⟩
    | .error e =>
      if isTransientMsg e = true ∧ i < retryCount - 1 then
        let r := gitRetryAux retryCount retryDelay work fuel (i + 1) (some e)
        ⟨r.result, r.attempts + 1, r.sleepTotal + retryDelay⟩
      else ⟨.error (some e), 1, 0⟩

/-- Embeds `GitBase.runGitCommandWithRetry` over an abstract unit of work
(`work i` is the outcome produced by attempt `i`, 0-indexed). -/
def runGitCommandWithRetry (retryCount retryDelay : Nat)
    (work : Nat → Except String α) : RetryResult α :=
  gitRetryAux retryCount retryDelay work retryCount 0 none

/-! ### GitHub request client (`GitHubApi.githubRequest`, githubApi.ts:76-117) -/

/-- Transport-level outcome of one HTTPS exchange: a received response
(status code possibly absent, raw body text), the request timeout firing,
or an `error` event on the request (DNS/connection failure or malformed
response framing). -/
inductive HttpEvent where
  | response (statusCode : Option Nat) (bodyText : String)
  | timeoutFired
  | requestError (message : String)
deriving DecidableEq

/-- Embeds `githubRequest`, parameterised by the JSON parser (`parse body
= none` models `JSON.parse` throwing). Every received response resolves:
status defaults to 0, the body parses to `none` when empty or malformed.
Only the timeout and request-error events reject. -/
def githubRequest (parse : String → Option V) :
    HttpEvent → Except String (Nat × Option V)
  | .response statusCode bodyText =>
    .ok (statusCode.getD 0, if bodyText.isEmpty then none else parse bodyText)
  | .timeoutFired => .error "请求超时，请检查网络连接"
  | .requestError m => .error ("网络错误: " ++ m)

/-! ### Progress/cancellation retry wrapper
(`GitHubApi.githubRequestWithProgress`, githubApi.ts:119-162) -/

/-- The cooperative cancellation flag, modelled by the attempt index from
which it reads true (the `onCancellationRequested` callback only ever sets
it, so it is monotone). -/
def cancelHit (cancelFrom : Option Nat) (i : Nat) : Bool :=
  match cancelFrom with
  | some c => decide (c ≤ i)
  | none => false

/-- Loop of `githubRequestWithProgress` from iteration `i` with `fuel`
remaining iterations. The cancellation flag is checked before each
attempt; an attempt's failure is always retried (there is no transient
classification here), sleeping only while attempts remain. -/
def githubRetryAux (retryCount retryDelay : Nat) (cancelFrom : Option Nat)
    (work : Nat → Except String α) :
    Nat → Nat → Option String → RetryResult α
  | 0, _, lastError => ⟨.error lastError, 0, 0⟩
  | fuel + 1, i, _ =>
    if cancelHit cancelFrom i then ⟨.error (some "已取消"), 0, 0⟩
    else
      match work i with
      | .ok a => ⟨.ok a, 1, 0⟩
      | .error e =>
        let d := if i < retryCount - 1 then retryDelay else 0
        let r := githubRetryAux retryCount retryDelay cancelFrom work fuel (i + 1) (some e)
        ⟨r.result, r.attempts + 1, r.sleepTotal + d⟩

/-- The retry loop inside `githubRequestWithProgress`. -/
def githubRetry (retryCount retryDelay : Nat) (cancelFrom : Option Nat)
    (work : Nat → Except String α) : RetryResult α :=
  githubRetryAux retryCount retryDelay cancelFrom work retryCount 0 none

/-- Observable outcome of `githubRequestWithProgress`: the returned value
(`none` models returning `null`), the error message surfaced to the user
via `showErrorMessage` (if any), and the attempt/sleep counts. -/
structure ProgressOutcome (α : Type) where
  value : Option α
  shownError : Option String
  attempts : Nat
  sleepTotal : Nat

/-- Embeds `githubRequestWithProgress`: runs the retry loop, suppresses
the distinguished cancellation message from user-facing surfacing, shows
any other error, and returns `null` on every failure. (The `.error none`
case would dereference a `null` error in the JavaScript; it is unreachable
for `retryCount ≥ 1`.) -/
def githubRequestWithProgress (retryCount retryDelay : Nat)
    (cancelFrom : Option Nat) (work : Nat → Except String α) :
    ProgressOutcome α :=
  let r := githubRetry retryCount retryDelay cancelFrom work
  match r.result with
  | .ok v => ⟨some v, none, r.attempts, r.sleepTotal⟩
  | .error (some m) =>
    ⟨none, if m == "已取消" then none else some m, r.attempts, r.sleepTotal⟩
  | .error none => ⟨none, none, r.attempts, r.sleepTotal⟩

/-! ### Target resolver (`WorkspaceManager`, workspaceManager.ts)

The host environment is a list of `WorkspaceInfo` records (folder plus its
on-demand working-copy fact and derived repo name, as produced by
`getWorkspaceInfos`); the user's quick-pick behaviour is an oracle from
the presented items to the chosen one. -/

/-- A workspace folder (`vscode.WorkspaceFolder`): filesystem path and
display name. -/
structure Folder where
  fsPath : String
  name : String
deriving DecidableEq

/-- Entry of `getWorkspaceInfos`: a folder with its working-copy fact and
optional repository display name. -/
structure WorkspaceInfo where
  folder : Folder
  isGitRepo : Bool
  repoName : Option String
deriving DecidableEq

/-- Observable outcome of one resolver invocation: the returned folder
(`none` models returning `undefined`), the items of the quick-pick prompt
when one was shown, the error message shown (if any), and the remembered
folder after the call. -/
structure SelectResult where
  selected : Option Folder
  promptedItems : Option (List WorkspaceInfo)
  errorMsg : Option String
  rememberedAfter : Option Folder
deriving DecidableEq

/-- The quick-pick step at the end of `selectWorkspaceFolder`: present the
items, return the user's selection or `undefined`, updating the remembered
folder only when `rememberChoice` is set and something was chosen. -/
def promptUser (infos : List WorkspaceInfo) (rememberChoice : Bool)
    (lastSelected : Option Folder)
    (pick : List WorkspaceInfo → Option WorkspaceInfo) : SelectResult :=
  match pick infos with
  | some chosen =>
    ⟨some chosen.folder, some infos, none,
      if rememberChoice then some chosen.folder else lastSelected⟩
  | none => ⟨none, some infos, none, lastSelected⟩

/-- Embeds `WorkspaceManager.selectWorkspaceFolder`: no folder is an
error; a single folder is returned unconditionally; a remembered folder
still present is returned when opted in; with `gitRepoOnly` the candidates
are filtered (empty: error; singleton: returned without prompting);
otherwise the user picks. -/
def selectWorkspaceFolder (env : List WorkspaceInfo)
    ( gitRepoOnly rememberChoice : Bool) (lastSelected : Option Folder)
    (pick : List WorkspaceInfo → Option WorkspaceInfo) : SelectResult :=
  match env with
  | [] => ⟨none, none, some "请先打开一个工作区", lastSelected⟩
  | [single] => ⟨some single.folder, none, none, lastSelected⟩
  | _ =>
    let folders := env.map (·.folder)
    let rememberedHit :=
      if rememberChoice then
        match lastSelected with
        | some lf =>
          if folders.any (fun f => f.fsPath == lf.fsPath) then some lf else none
        | none => none
      else none
    match rememberedHit with
    | some lf => ⟨some lf, none, none, lastSelected⟩
    | none =>
      if gitRepoOnly then
        match env.filter (fun info => info.isGitRepo) with
        | [] => ⟨none, none, some "没有找到 Git 仓库", lastSelected⟩
        | [onlyInfo] => ⟨some onlyInfo.folder, none, none, lastSelected⟩
        | filtered => promptUser filtered rememberChoice lastSelected pick
      else promptUser env rememberChoice lastSelected pick

/-- Embeds `WorkspaceManager.selectWorkspaceFolderSmart`: no folder is an
error; a single folder is returned unconditionally; the active editor's
folder is preferred when it satisfies the working-copy requirement;
otherwise it defers to `selectWorkspaceFolder` (without `rememberChoice`,
which that path leaves unset). -/
def selectWorkspaceFolderSmart (env : List WorkspaceInfo)
    ( gitRepoOnly : Bool) (activeInfo : Option WorkspaceInfo)
    (lastSelected : Option Folder)
    (pick : List WorkspaceInfo → Option WorkspaceInfo) : SelectResult :=
  match env with
  | [] => ⟨none, none, some "请先打开一个工作区", lastSelected⟩
  | [single] => ⟨some single.folder, none, none, lastSelected⟩
  | _ =>
    match activeInfo with
    | some af =>
      if !gitRepoOnly || af.isGitRepo then
        ⟨some af.folder, none, none, lastSelected⟩
      else selectWorkspaceFolder env gitRepoOnly false lastSelected pick
    | none => selectWorkspaceFolder env gitRepoOnly false lastSelected pick

/-! ### Remote URL parser (`GitHubApi.parseGitHubUrl`, githubApi.ts:55-64)

The two regular expressions `github\.com\/([^/]+)\/([^/.]+)` and
`github\.com:([^/]+)\/([^/.]+)` are embedded directly: a leftmost match of
the literal `github.com` followed by the separator, a maximal nonempty run
of non-`/` characters, a `/`, and a maximal nonempty run of characters
that are neither `/` nor `.` (both runs are uniquely determined, so no
backtracking arises). -/

/-- Drop the literal pattern from the front of the list, or fail. -/
def dropLit : List Char → List Char → Option (List Char)
  | s, [] => some s
  | [], _ :: _ => none
  | c :: cs, p :: ps => if c == p then dropLit cs ps else none

/-- Maximal run of characters other than `/` (capture group `[^/]+` before
its following `/`). -/
def takeSeg1 : List Char → List Char × List Char
  | [] => ([], [])
  | c :: cs =>
    if c == '/' then ([], c :: cs)
    else
      let r := takeSeg1 cs
      (c :: r.1, r.2)

/-- Maximal run of characters that are neither `/` nor `.` (capture group
`[^/.]+`). -/
def takeSeg2 : List Char → List Char × List Char
  | [] => ([], [])
  | c :: cs =>
    if c == '/' || c == '.' then ([], c :: cs)
    else
      let r := takeSeg2 cs
      (c :: r.1, r.2)

/-- Match the whole pattern at the head of the list: the literal
`github.com` plus separator, then the two capture groups. -/
def matchAt (sep : Char) (s : List Char) : Option (List Char × List Char) :=
  match dropLit s ("github.com".data ++ [sep]) with
  | none => none
  | some rest =>
    match takeSeg1 rest with
    | ([], _) => none
    | (g1, rest1) =>
      match rest1 with
      | '/' :: rest2 =>
        match takeSeg2 rest2 with
        | ([], _) => none
        | (g2, _) => some (g1, g2)
      | _ => none

/-- Leftmost match of the pattern anywhere in the list (the regexes are
unanchored, as in JavaScript `String.match`). -/
def findMatch (sep : Char) : List Char → Option (List Char × List Char)
  | [] => none
  | c :: cs =>
    match matchAt sep (c :: cs) with
    | some r => some r
    | none => findMatch sep cs

/-- JavaScript `String.replace` with a string pattern: replace the first
occurrence only, leaving the string unchanged when the pattern is absent. -/
def replaceFirst : List Char → List Char → List Char → List Char
  | [], pat, rep => if pat.isEmpty then rep else []
  | c :: cs, pat, rep =>
    if strStartsWith (c :: cs) pat then rep ++ (c :: cs).drop pat.length
    else c :: replaceFirst cs pat rep

/-- Embeds `parseGitHubUrl`: try the HTTPS-shaped pattern first, then the
SSH-shaped one, and strip a `.git` suffix from the captured repo name (a
no-op in fact, since the second capture group can never contain `.`). -/
def parseGitHubUrl (remoteUrl : String) : Option (String × String) :=
  let httpsMatch := findMatch '/' remoteUrl.data
  let sshMatch := findMatch ':' remoteUrl.data
  match httpsMatch.orElse (fun _ => sshMatch) with
  | some (o, r) => some (⟨o⟩, ⟨replaceFirst r ".git".data []⟩)
  | none => none

/-! ### Saved-credential store (`SecretStorage`, secretStorage.ts)

`saveSecret` and `deleteSecret` are read-modify-write cycles over the
serialized list held in the host's secret vault; the embedding works
directly on that list, with `now` standing for `Date.now()`. -/

/-- A saved credential as serialized in the vault (the timestamp fields
are optional because entries written by older versions lack them). -/
structure SavedSecret where
  name : String
  value : String
  description : Option String
  createdAt : Option Nat
  updatedAt : Option Nat
deriving DecidableEq

/-- JavaScript `a || b` on a possibly-absent number: absent or zero falls
through to the default (embeds `secrets[i].createdAt || now`). -/
def jsOrNat (a : Option Nat) (b : Nat) : Nat :=
  match a with
  | some t => if t == 0 then b else t
  | none => b

/-- Embeds `SecretStorage.saveSecret` on the stored list: replace the
first entry with the given name in place (keeping its `createdAt` when
present and nonzero, stamping `updatedAt`), or append a fresh entry. -/
def saveSecret (secrets : List SavedSecret) (name value : String)
    (description : Option String) (now : Nat) : List SavedSecret :=
  match secrets with
  | [] => [⟨name, value, description, some now, some now⟩]
  | s :: rest =>
    if s.name == name then
      ⟨name, value, description, some (jsOrNat s.createdAt now), some now⟩ :: rest
    else s :: saveSecret rest name value description now

/-- Embeds `SecretStorage.deleteSecret` on the stored list: keep exactly
the entries whose name differs. -/
def deleteSecret (secrets : List SavedSecret) (name : String) :
    List SavedSecret :=
  secrets.filter fun s => !(s.name == name)

/-- One user-initiated vault operation. -/
inductive SecretOp where
  | save (name value : String) (description : Option String) (now : Nat)
  | del (name : String)

/-- Apply one vault operation to the stored list. -/
def applyOp (secrets : List SavedSecret) : SecretOp → List SavedSecret
  | .save n v d now => saveSecret secrets n v d now
  | .del n => deleteSecret secrets n

/-- Apply a sequence of vault operations in order. -/
def applyOps (secrets : List SavedSecret) (ops : List SecretOp) :
    List SavedSecret :=
  ops.foldl applyOp secrets

/-- The stored list names each credential at most once. -/
def uniqueNames (secrets : List SavedSecret) : Prop :=
  (secrets.map (·.name)).Nodup

/-! ### Concrete instances used by counterexamples and witnesses -/

/-- A workspace folder that is a git working copy. -/
def folderA : Folder := ⟨"/ws/alpha", "alpha"⟩

/-- A workspace folder that is not a git working copy. -/
def folderB : Folder := ⟨"/ws/beta", "beta"⟩

/-- A second non-working-copy workspace folder. -/
def folderC : Folder := ⟨"/ws/gamma", "gamma"⟩

/-- Workspace info for `folderA`: a working copy. -/
def infoA : WorkspaceInfo := ⟨folderA, true, some "alpha"⟩

/-- Workspace info for `folderB`: a plain folder. -/
def infoB : WorkspaceInfo := ⟨folderB, false, none⟩

/-- Workspace info for `folderC`: a plain folder. -/
def infoC : WorkspaceInfo := ⟨folderC, false, none⟩

/-! ### Substring-matching lemmas -/

/-- Startswith characterised as a prefix decomposition. -/
theorem strStartsWith_iff (pat : List Char) :
    ∀ s, strStartsWith s pat = true ↔ ∃ t, s = pat ++ t := by
  induction pat with
  | nil => intro s; simp [strStartsWith]
  | cons p ps ih =>
    intro s
    cases s with
    | nil => simp [strStartsWith]
    | cons c cs =>
      simp only [strStartsWith, Bool.and_eq_true, beq_iff_eq, ih,
        List.cons_append, List.cons.injEq]
      constructor
      · rintro ⟨rfl, t, rfl⟩; exact ⟨t, rfl, rfl⟩
      · rintro ⟨t, rfl, rfl⟩; exact ⟨rfl, t, rfl⟩

/-- Substring containment characterised as a three-way decomposition. -/
theorem containsSub_iff (pat : List Char) :
    ∀ s, containsSub s pat = true ↔ ∃ u v, s = u ++ pat ++ v := by
  intro s
  induction s with
  | nil =>
    simp only [containsSub, strStartsWith_iff]
    constructor
    · rintro ⟨t, ht⟩
      rcases List.append_eq_nil.mp ht.symm with ⟨h1, h2⟩
      exact ⟨[], [], by simp [h1, h2]⟩
    · rintro ⟨u, v, huv⟩
      rcases List.append_eq_nil.mp huv.symm with ⟨h1, h2⟩
      rcases List.append_eq_nil.mp h1 with ⟨h3, h4⟩
      exact ⟨[], by simp [h4]⟩
  | cons c cs ih =>
    simp only [containsSub, Bool.or_eq_true, strStartsWith_iff, ih]
    constructor
    · rintro (⟨t, ht⟩ | ⟨u, v, huv⟩)
      · exact ⟨[], t, by simp [ht]⟩
      · exact ⟨c :: u, v, by simp [huv]⟩
    · rintro ⟨u, v, huv⟩
      cases u with
      | nil => exact Or.inl ⟨v, by simpa using huv⟩
      | cons b bs =>
        simp only [List.cons_append, List.cons.injEq] at huv
        exact Or.inr ⟨bs, v, huv.2⟩

/-- Substring containment is preserved by mapping a character function. -/
theorem containsSub_map (f : Char → Char) (s pat : List Char)
    (h : containsSub s pat = true) :
    containsSub (s.map f) (pat.map f) = true := by
  rcases (containsSub_iff pat s).mp h with ⟨u, v, rfl⟩
  exact (containsSub_iff _ _).mpr ⟨u.map f, v.map f, by simp⟩

/-- Substring containment is transitive. -/
theorem containsSub_trans (s a b : List Char) (h1 : containsSub s a = true)
    (h2 : containsSub a b = true) : containsSub s b = true := by
  rcases (containsSub_iff a s).mp h1 with ⟨u, v, rfl⟩
  rcases (containsSub_iff b a).mp h2 with ⟨u', v', rfl⟩
  exact (containsSub_iff _ _).mpr ⟨u ++ u', v' ++ v, by simp⟩

/-! ### Retry-loop lemmas -/

/-- Unfolding: the git retry loop with no fuel throws the last error. -/
theorem gitRetryAux_zero (n delay : Nat) (work : Nat → Except String α)
    (i : Nat) (last : Option String) :
    gitRetryAux n delay work 0 i last = ⟨.error last, 0, 0⟩ := rfl

/-- Unfolding: one iteration of the git retry loop. -/
theorem gitRetryAux_succ (n delay : Nat) (work : Nat → Except String α)
    (fuel i : Nat) (last : Option String) :
    gitRetryAux n delay work (fuel + 1) i last =
      match work i with
      | .ok a => ⟨.ok a, 1, 0⟩
      | .error e =>
        if isTransientMsg e = true ∧ i < n - 1 then
          let r := gitRetryAux n delay work fuel (i + 1) (some e)
          ⟨r.result, r.attempts + 1, r.sleepTotal + delay⟩
        else ⟨.error (some e), 1, 0⟩ := rfl

/-- Unfolding: the GitHub retry loop with no fuel throws the last error. -/
theorem githubRetryAux_zero (n delay : Nat) (cf : Option Nat)
    (work : Nat → Except String α) (i : Nat) (last : Option String) :
    githubRetryAux n delay cf work 0 i last = ⟨.error last, 0, 0⟩ := rfl

/-- Unfolding: one iteration of the GitHub retry loop. -/
theorem githubRetryAux_succ (n delay : Nat) (cf : Option Nat)
    (work : Nat → Except String α) (fuel i : Nat) (last : Option String) :
    githubRetryAux n delay cf work (fuel + 1) i last =
      if cancelHit cf i then ⟨.error (some "已取消"), 0, 0⟩
      else
        match work i with
        | .ok a => ⟨.ok a, 1, 0⟩
        | .error e =>
          let d := if i < n - 1 then delay else 0
          let r := githubRetryAux n delay cf work fuel (i + 1) (some e)
          ⟨r.result, r.attempts + 1, r.sleepTotal + d⟩ := rfl

/-- The git retry loop performs at most `fuel` attempts. -/
theorem gitRetryAux_attempts_le (n delay : Nat) (work : Nat → Except String α) :
    ∀ fuel i last, (gitRetryAux n delay work fuel i last).attempts ≤ fuel := by
  intro fuel
  induction fuel with
  | zero => intro i last; simp [gitRetryAux_zero]
  | succ f ih =>
    intro i last
    rw [gitRetryAux_succ]
    cases hw : work i with
    | ok a => simp
    | error e =>
      by_cases hc : isTransientMsg e = true ∧ i < n - 1
      · simpa [hc] using Nat.succ_le_succ (ih (i + 1) (some e))
      · simp [hc]

/-- The git retry loop performs at least one attempt when fuel remains. -/
theorem gitRetryAux_attempts_pos (n delay : Nat) (work : Nat → Except String α)
    (fuel i : Nat) (last : Option String) :
    1 ≤ (gitRetryAux n delay work (fuel + 1) i last).attempts := by
  rw [gitRetryAux_succ]
  cases hw : work i with
  | ok a => simp
  | error e =>
    by_cases hc : isTransientMsg e = true ∧ i < n - 1
    · simp [hc]
    · simp [hc]

/-- On a unit of work whose every attempt throws a transient-classified
failure, the git retry loop uses all its fuel and propagates the failure
of the last attempt, sleeping between consecutive attempts. -/
theorem gitRetryAux_allTransient (n delay : Nat) (work : Nat → Except String α)
    (e : Nat → String) (hwork : ∀ j, work j = .error (e j))
    (htrans : ∀ j, isTransientMsg (e j) = true) :
    ∀ fuel i last, 1 ≤ fuel → i + fuel = n →
      gitRetryAux n delay work fuel i last =
        ⟨.error (some (e (n - 1))), fuel, (fuel - 1) * delay⟩ := by
  intro fuel
  induction fuel with
  | zero => intro i last h1 _; omega
  | succ f ih =>
    intro i last _ hin
    rw [gitRetryAux_succ, hwork i]
    cases f with
    | zero =>
      have hi : i = n - 1 := by omega
      have hno : ¬(isTransientMsg (e i) = true ∧ i < n - 1) := by
        rintro ⟨-, hb⟩; omega
      simp only [if_neg hno]
      simp [hi]
    | succ f' =>
      have hlt : i < n - 1 := by omega
      have hrec := ih (i + 1) (some (e i)) (by omega) (by omega)
      have hyes : isTransientMsg (e i) = true ∧ i < n - 1 := ⟨htrans i, hlt⟩
      simp only [if_pos hyes, hrec]
      simp [Nat.succ_mul]

/-- The GitHub retry loop performs at most `fuel` attempts. -/
theorem githubRetryAux_attempts_le (n delay : Nat) (cf : Option Nat)
    (work : Nat → Except String α) :
    ∀ fuel i last, (githubRetryAux n delay cf work fuel i last).attempts ≤ fuel := by
  intro fuel
  induction fuel with
  | zero => intro i last; simp [githubRetryAux_zero]
  | succ f ih =>
    intro i last
    rw [githubRetryAux_succ]
    by_cases hcancel : cancelHit cf i = true
    · simp [hcancel]
    · simp only [hcancel, Bool.false_eq_true, if_false]
      cases hw : work i with
      | ok a => simp
      | error e => simpa using Nat.succ_le_succ (ih (i + 1) (some e))

/-- On a unit of work whose every attempt throws, the uncancelled GitHub
retry loop uses all its fuel and propagates the failure of the last
attempt (no transient classification is involved). -/
theorem githubRetryAux_allError (n delay : Nat) (work : Nat → Except String α)
    (e : Nat → String) (hwork : ∀ j, work j = .error (e j)) :
    ∀ fuel i last, 1 ≤ fuel → i + fuel = n →
      githubRetryAux n delay none work fuel i last =
        ⟨.error (some (e (n - 1))), fuel, (fuel - 1) * delay⟩ := by
  intro fuel
  induction fuel with
  | zero => intro i last h1 _; omega
  | succ f ih =>
    intro i last _ hin
    rw [githubRetryAux_succ]
    simp only [cancelHit, Bool.false_eq_true, if_false]
    rw [hwork i]
    cases f with
    | zero =>
      have hi : i = n - 1 := by omega
      simp only [if_neg (by omega : ¬ i < n - 1), githubRetryAux_zero]
      simp [hi]
    | succ f' =>
      have hlt : i < n - 1 := by omega
      have hrec := ih (i + 1) (some (e i)) (by omega) (by omega)
      simp only [if_pos hlt, hrec]
      simp [Nat.succ_mul]

/-- When the cancellation flag becomes observable before attempt `k`
(0-indexed `k - 1`) and every earlier attempt fails, the GitHub retry loop
stops at the cancellation check with the distinguished message, having
performed only the earlier attempts. -/
theorem githubRetryAux_cancel (n delay k : Nat) (work : Nat → Except String α)
    (e : Nat → String) (hw : ∀ j, j < k - 1 → work j = .error (e j))
    (hk : 1 ≤ k) (hkn : k ≤ n) :
    ∀ fuel i last, i + fuel = n → i ≤ k - 1 →
      githubRetryAux n delay (some (k - 1)) work fuel i last =
        ⟨.error (some "已取消"), k - 1 - i, (k - 1 - i) * delay⟩ := by
  intro fuel
  induction fuel with
  | zero => intro i last hin hik; omega
  | succ f ih =>
    intro i last hin hik
    rw [githubRetryAux_succ]
    by_cases hi : i = k - 1
    · simp [cancelHit, hi]
    · have hilt : i < k - 1 := by omega
      rw [if_neg (by simp only [cancelHit, decide_eq_true_eq]; omega), hw i hilt]
      have hrec := ih (i + 1) (some (e i)) (by omega) (by omega)
      simp only [if_pos (by omega : i < n - 1), hrec]
      have h1 : k - 1 - i = (k - 1 - (i + 1)) + 1 := by omega
      simp [h1, Nat.succ_mul]

/-! ### Claim theorems: retry orchestrator -/

/-- C1: with `maxAttempts = retryCount = n`, both retry wrappers perform
at most `n` attempts for any unit of work, and a unit of work that throws
a transient-classified failure on every attempt is attempted exactly `n`
times, the finally propagated error being the `n`-th attempt's error (the
accumulated inter-attempt sleep being `(n-1)` delays). -/
theorem retry_attempt_bound (n delay : Nat) (cf : Option Nat)
    (work failing : Nat → Except String α) (e : Nat → String) (hn : 1 ≤ n)
    (hfail : ∀ j, failing j = .error (e j))
    (htrans : ∀ j, isTransientMsg (e j) = true) :
    (runGitCommandWithRetry n delay work).attempts ≤ n
    ∧ (githubRetry n delay cf work).attempts ≤ n
    ∧ runGitCommandWithRetry n delay failing =
        ⟨.error (some (e (n - 1))), n, (n - 1) * delay⟩
    ∧ githubRetry n delay none failing =
        ⟨.error (some (e (n - 1))), n, (n - 1) * delay⟩ :=
  ⟨gitRetryAux_attempts_le n delay work n 0 none,
   githubRetryAux_attempts_le n delay cf work n 0 none,
   gitRetryAux_allTransient n delay failing e hfail htrans n 0 none hn (by omega),
   githubRetryAux_allError n delay failing e hfail n 0 none hn (by omega)⟩

/-- C1 witness: the bound and the exact attempt count at `n = 2`,
`delay = 3`, with the constantly-"timeout"-throwing unit of work. -/
theorem retry_attempt_bound_witness :
    (runGitCommandWithRetry 2 3 (fun _ => (Except.ok "x" : Except String String))).attempts ≤ 2
    ∧ (githubRetry 2 3 (some 5) (fun _ => (Except.ok "x" : Except String String))).attempts ≤ 2
    ∧ runGitCommandWithRetry 2 3 (fun _ => (Except.error "timeout" : Except String String)) =
        ⟨.error (some "timeout"), 2, 3⟩
    ∧ githubRetry 2 3 none (fun _ => (Except.error "timeout" : Except String String)) =
        ⟨.error (some "timeout"), 2, 3⟩ :=
  retry_attempt_bound 2 3 (some 5) (fun _ => .ok "x")
    (fun _ => .error "timeout") (fun _ => "timeout") (by decide)
    (fun _ => rfl) (fun _ => (by decide : isTransientMsg "timeout" = true))

/-- C2 counterexample: "permission denied" matches none of the transient
substrings, yet the GitHub-request retry wrapper attempts the unit of work
twice under `retryCount = 2` (sleeping 7 ms in between) instead of
propagating the fatal failure after one attempt as the claim states for
both wrappers. -/
theorem fatal_retry_github_cex :
    isTransientMsg "permission denied" = false
    ∧ githubRetry 2 7 none
        (fun _ => (Except.error "permission denied" : Except String String)) =
        ⟨.error (some "permission denied"), 2, 7⟩ :=
  ⟨by decide, rfl⟩

/-- C2 (amended): with `maxAttempts > 1`, a unit of work whose first
attempt throws a non-transient (fatal) failure is attempted exactly once
by the git-command retry wrapper, the failure propagating with no
inter-attempt delay; the GitHub-request retry wrapper, by contrast,
classifies nothing and retries every failure, attempting a constantly
failing unit of work `maxAttempts` times. -/
theorem fatal_failure_single_attempt (n delay : Nat) (hn : 1 < n)
    (work : Nat → Except String α) (msg : String)
    (h0 : work 0 = .error msg) (hfatal : isTransientMsg msg = false) :
    runGitCommandWithRetry n delay work = ⟨.error (some msg), 1, 0⟩
    ∧ (githubRetry n delay none
        (fun _ => (Except.error msg : Except String α))).attempts = n := by
  constructor
  · obtain ⟨m, rfl⟩ : ∃ m, n = m + 1 := ⟨n - 1, by omega⟩
    rw [runGitCommandWithRetry, gitRetryAux_succ, h0]
    have hno : ¬(isTransientMsg msg = true ∧ 0 < m + 1 - 1) := by
      rintro ⟨ht, -⟩; rw [hfatal] at ht; exact Bool.false_ne_true ht
    simp only [if_neg hno]
  · rw [githubRetry,
      githubRetryAux_allError n delay _ (fun _ => msg) (fun _ => rfl) n 0 none
        (by omega) (by omega)]

/-- C2 (amended) witness: at `n = 3`, `delay = 9` with the constantly
"permission denied"-throwing unit of work. -/
theorem fatal_failure_single_attempt_witness :
    runGitCommandWithRetry 3 9
        (fun _ => (Except.error "permission denied" : Except String String)) =
      ⟨.error (some "permission denied"), 1, 0⟩
    ∧ (githubRetry 3 9 none
        (fun _ => (Except.error "permission denied" : Except String String))).attempts = 3 :=
  fatal_failure_single_attempt 3 9 (by decide) _ "permission denied" rfl (by decide)

/-- C3: the process executor turns a killed (timed-out) child process into
the failure message 操作超时，请检查网络连接, but that message contains
none of the classifier's English substrings, so it is classified fatal and
`runGitCommandWithRetry` propagates it after a single attempt (here with
`retryCount = 3`) — contradicting the specified transient classification
and retry of timeout failures. -/
theorem killed_timeout_not_retried :
    runGitCommand (.failed true none none) = .error "操作超时，请检查网络连接"
    ∧ isTransientMsg "操作超时，请检查网络连接" = false
    ∧ runGitCommandWithRetry 3 1500
        (fun _ => runGitCommand (.failed true none none)) =
        ⟨.error (some "操作超时，请检查网络连接"), 1, 0⟩ :=
  ⟨rfl, by decide, rfl⟩

/-- C8: the transient classifier is a case-insensitive substring match: a
failure message containing "SSL handshake failed" is classified transient
and retried while attempts remain (at least a second attempt is made for
`maxAttempts ≥ 2`), while "permission denied" matches none of the
substrings, and any unclassified first failure is propagated after exactly
one attempt with no sleep even though attempts remain. -/
theorem classifier_ssl_transient_permission_fatal
    (msgT msgF : String) (n delay : Nat) (hn : 2 ≤ n)
    (workT workF : Nat → Except String α)
    (hsub : containsSub msgT.data "SSL handshake failed".data = true)
    (hT0 : workT 0 = .error msgT)
    (hF0 : workF 0 = .error msgF)
    (hFfatal : isTransientMsg msgF = false) :
    isTransientMsg msgT = true
    ∧ 2 ≤ (runGitCommandWithRetry n delay workT).attempts
    ∧ isTransientMsg "permission denied" = false
    ∧ runGitCommandWithRetry n delay workF = ⟨.error (some msgF), 1, 0⟩ := by
  have htrans : isTransientMsg msgT = true := by
    have h1 : containsSub (msgT.data.map Char.toLower)
        ("SSL handshake failed".data.map Char.toLower) = true :=
      containsSub_map Char.toLower _ _ hsub
    have h2 : containsSub (msgT.data.map Char.toLower) "ssl".data = true :=
      containsSub_trans _ _ _ h1 (by decide)
    simp only [isTransientMsg, h2, Bool.or_true, Bool.true_or]
  refine ⟨htrans, ?_, by decide, ?_⟩
  · obtain ⟨m, rfl⟩ : ∃ m, n = m + 2 := ⟨n - 2, by omega⟩
    rw [runGitCommandWithRetry, gitRetryAux_succ, hT0]
    have hyes : isTransientMsg msgT = true ∧ 0 < m + 2 - 1 := ⟨htrans, by omega⟩
    simp only [if_pos hyes]
    exact Nat.succ_le_succ (gitRetryAux_attempts_pos _ _ _ m 1 _)
  · obtain ⟨m, rfl⟩ : ∃ m, n = m + 2 := ⟨n - 2, by omega⟩
    rw [runGitCommandWithRetry, gitRetryAux_succ, hF0]
    have hno : ¬(isTransientMsg msgF = true ∧ 0 < m + 2 - 1) := by
      rintro ⟨ht, -⟩; rw [hFfatal] at ht; exact Bool.false_ne_true ht
    simp only [if_neg hno]

/-- C8 witness: at `n = 2`, `delay = 0` with a unit of work failing with
"fatal: SSL handshake failed" and one failing with "permission denied". -/
theorem classifier_ssl_transient_permission_fatal_witness :
    isTransientMsg "fatal: SSL handshake failed" = true
    ∧ 2 ≤ (runGitCommandWithRetry 2 0
        (fun _ => (Except.error "fatal: SSL handshake failed" : Except String String))).attempts
    ∧ isTransientMsg "permission denied" = false
    ∧ runGitCommandWithRetry 2 0
        (fun _ => (Except.error "permission denied" : Except String String)) =
        ⟨.error (some "permission denied"), 1, 0⟩ :=
  classifier_ssl_transient_permission_fatal
    "fatal: SSL handshake failed" "permission denied" 2 0 (by decide)
    (fun _ => .error "fatal: SSL handshake failed")
    (fun _ => .error "permission denied")
    (by decide) rfl rfl (by decide)

/-! ### Claim theorems: request client, cancellation, target resolver -/

/-- C4: the request client never rejects because of a status code — every
received response resolves as the pair of the status code (defaulting to
0) and the parsed body, which is left `null` when the body is empty or
fails to parse — and it rejects only on the two transport-level events:
the request timeout and a request `error` event (DNS/connection failure or
malformed response framing, in which case no body is produced). -/
theorem github_request_never_rejects_on_status (V : Type)
    (parse : String → Option V) :
    (∀ sc body, githubRequest parse (.response sc body) =
        .ok (sc.getD 0, if body.isEmpty then none else parse body))
    ∧ (∀ sc body, ¬ body.isEmpty → parse body = none →
        githubRequest parse (.response sc body) = .ok (sc.getD 0, none))
    ∧ (∀ ev msg, githubRequest parse ev = .error msg →
        (ev = .timeoutFired ∧ msg = "请求超时，请检查网络连接")
        ∨ ∃ m, ev = .requestError m ∧ msg = "网络错误: " ++ m) := by
  refine ⟨fun sc body => rfl, fun sc body hne hp => ?_, fun ev msg hev => ?_⟩
  · simp [githubRequest, hne, hp]
  · cases ev with
    | response sc body => exact absurd hev (by simp [githubRequest])
    | timeoutFired =>
      exact Or.inl ⟨rfl, by simpa [githubRequest] using hev.symm⟩
    | requestError m =>
      exact Or.inr ⟨m, rfl, by simpa [githubRequest] using hev.symm⟩

/-- C4 witness: a 404 response with an unparseable body resolves as
`(404, null)`, and the timeout event is characterised as one of the two
rejecting transport events. -/
theorem github_request_never_rejects_on_status_witness :
    githubRequest (fun _ => (none : Option Nat)) (.response (some 404) "not-json") =
      .ok (404, none)
    ∧ ((HttpEvent.timeoutFired = HttpEvent.timeoutFired
          ∧ "请求超时，请检查网络连接" = "请求超时，请检查网络连接")
        ∨ ∃ m, HttpEvent.timeoutFired = HttpEvent.requestError m
          ∧ "请求超时，请检查网络连接" = "网络错误: " ++ m) :=
  ⟨(github_request_never_rejects_on_status Nat (fun _ => none)).2.1
      (some 404) "not-json" (by decide) rfl,
   (github_request_never_rejects_on_status Nat (fun _ => none)).2.2
      .timeoutFired _ rfl⟩

/-- C6: in an environment exposing exactly one candidate directory, both
resolver entry points return that directory with no prompt and no error,
for every value of the working-copy flag, of the folder's working-copy
fact, of the remembered folder, and of the active-editor context — so no
working-copy check can influence the outcome. -/
theorem single_candidate_returned_unconditionally (info : WorkspaceInfo)
    ( gitRepoOnly rememberChoice : Bool) (last : Option Folder)
    (active : Option WorkspaceInfo)
    (pick : List WorkspaceInfo → Option WorkspaceInfo) :
    selectWorkspaceFolder [info] gitRepoOnly rememberChoice last pick =
      ⟨some info.folder, none, none, last⟩
    ∧ selectWorkspaceFolderSmart [info] gitRepoOnly active last pick =
      ⟨some info.folder, none, none, last⟩ :=
  ⟨rfl, rfl⟩

/-- C7: when the cancellation flag is observed at the check preceding
attempt `k` of a sequence whose earlier attempts all failed and whose
budget allows attempt `k`, the retry loop ends in the distinguished
cancelled outcome having performed only `k - 1` attempts — attempt `k` is
never issued — and the progress wrapper surfaces no error message and
returns `null`. -/
theorem cancellation_before_attempt (n delay k : Nat)
    (work : Nat → Except String α) (e : Nat → String)
    (hk : 1 ≤ k) (hkn : k ≤ n)
    (hw : ∀ j, j < k - 1 → work j = .error (e j)) :
    githubRetry n delay (some (k - 1)) work =
      ⟨.error (some "已取消"), k - 1, (k - 1) * delay⟩
    ∧ (githubRequestWithProgress n delay (some (k - 1)) work).value = none
    ∧ (githubRequestWithProgress n delay (some (k - 1)) work).shownError = none
    ∧ (githubRequestWithProgress n delay (some (k - 1)) work).attempts = k - 1 := by
  have hloop := githubRetryAux_cancel n delay k work e hw hk hkn n 0 none
    (by omega) (by omega)
  have hret : githubRetry n delay (some (k - 1)) work =
      ⟨.error (some "已取消"), k - 1, (k - 1) * delay⟩ := by
    rw [githubRetry, hloop]; simp
  refine ⟨hret, ?_, ?_, ?_⟩ <;>
    simp [githubRequestWithProgress, hret]

/-- C7 witness: cancelling before attempt 2 of a 3-attempt sequence whose
first attempt failed. -/
theorem cancellation_before_attempt_witness :
    githubRetry 3 5 (some 1) (fun _ => (Except.error "x" : Except String String)) =
      ⟨.error (some "已取消"), 1, 5⟩
    ∧ (githubRequestWithProgress 3 5 (some 1)
        (fun _ => (Except.error "x" : Except String String))).value = none
    ∧ (githubRequestWithProgress 3 5 (some 1)
        (fun _ => (Except.error "x" : Except String String))).shownError = none
    ∧ (githubRequestWithProgress 3 5 (some 1)
        (fun _ => (Except.error "x" : Except String String))).attempts = 1 :=
  cancellation_before_attempt 3 5 2 _ (fun _ => "x") (by decide) (by decide)
    (fun _ _ => rfl)

/-- C5 counterexample: with two candidates of which the working-copy
filter eliminates one, the resolver returns the surviving candidate
directly — no quick-pick prompt is shown — even for a user who would
dismiss any prompt, whereas the claim requires a single-choice prompt
whose dismissal yields `undefined`. -/
theorem two_candidates_one_filtered_cex :
    selectWorkspaceFolder [infoA, infoB] true false none (fun _ => none) =
      ⟨some folderA, none, none, none⟩
    ∧ (selectWorkspaceFolder [infoA, infoB] true false none
        (fun _ => none)).promptedItems = none :=
  ⟨rfl, rfl⟩

/-- C5 (amended): with exactly two candidate directories, no remembered
folder, and the working-copy filter applied: if the filter leaves exactly
one candidate, that candidate's folder is returned directly with no
prompt and no error; if the filter empties the set, the resolver fails
with the no-git-repository error before any unit of work, returning
`undefined`. -/
theorem two_candidates_filtered (a b c : WorkspaceInfo)
    (rememberChoice : Bool)
    (pick : List WorkspaceInfo → Option WorkspaceInfo) :
    ((a :: [b]).filter (fun info => info.isGitRepo) = [c] →
      selectWorkspaceFolder [a, b] true rememberChoice none pick =
        ⟨some c.folder, none, none, none⟩)
    ∧ ((a :: [b]).filter (fun info => info.isGitRepo) = [] →
      selectWorkspaceFolder [a, b] true rememberChoice none pick =
        ⟨none, none, some "没有找到 Git 仓库", none⟩) := by
  constructor <;> intro hfilter <;>
    cases rememberChoice <;>
      simp [selectWorkspaceFolder, hfilter]

/-- C5 (amended) witness: the concrete two-candidate environments — one
working copy among two folders, and none among two folders. -/
theorem two_candidates_filtered_witness :
    selectWorkspaceFolder [infoA, infoB] true false none (fun infos => infos.head?) =
      ⟨some folderA, none, none, none⟩
    ∧ selectWorkspaceFolder [infoC, infoB] true false none (fun infos => infos.head?) =
      ⟨none, none, some "没有找到 Git 仓库", none⟩ :=
  ⟨(two_candidates_filtered infoA infoB infoA false (fun infos => infos.head?)).1 rfl,
   (two_candidates_filtered infoC infoB infoC false (fun infos => infos.head?)).2 rfl⟩

/-! ### Saved-credential store lemmas -/

/-- Every name in the store after a save is the saved name or an existing
name. -/
theorem mem_names_saveSecret (n v : String) (d : Option String) (now : Nat)
    (x : String) :
    ∀ l : List SavedSecret, x ∈ (saveSecret l n v d now).map (·.name) →
      x = n ∨ x ∈ l.map (·.name) := by
  intro l
  induction l with
  | nil => intro hx; exact Or.inl (by simpa [saveSecret] using hx)
  | cons s rest ih =>
    intro hx
    by_cases h : (s.name == n) = true
    · rw [saveSecret, if_pos h] at hx
      simp only [List.map_cons, List.mem_cons] at hx
      rcases hx with hx | hx
      · exact Or.inl hx
      · exact Or.inr (List.mem_cons_of_mem _ hx)
    · rw [saveSecret, if_neg h] at hx
      simp only [List.map_cons, List.mem_cons] at hx
      rcases hx with hx | hx
      · exact Or.inr (by simp [hx])
      · rcases ih hx with hx' | hx'
        · exact Or.inl hx'
        · exact Or.inr (List.mem_cons_of_mem _ hx')

/-- Saving preserves name-uniqueness of the store. -/
theorem uniqueNames_saveSecret (n v : String) (d : Option String) (now : Nat) :
    ∀ l : List SavedSecret, uniqueNames l → uniqueNames (saveSecret l n v d now) := by
  intro l
  induction l with
  | nil => intro _; simp [saveSecret, uniqueNames]
  | cons s rest ih =>
    intro h
    rw [uniqueNames, List.map_cons, List.nodup_cons] at h
    obtain ⟨hnotin, hrest⟩ := h
    by_cases hb : (s.name == n) = true
    · rw [saveSecret, if_pos hb, uniqueNames, List.map_cons, List.nodup_cons]
      exact ⟨by rw [← beq_iff_eq.mp hb]; exact hnotin, hrest⟩
    · rw [saveSecret, if_neg hb, uniqueNames, List.map_cons, List.nodup_cons]
      refine ⟨fun hmem => ?_, ih hrest⟩
      rcases mem_names_saveSecret n v d now s.name rest hmem with h' | h'
      · exact absurd (beq_iff_eq.mpr h') (by simpa using hb)
      · exact hnotin h'

/-- Deleting preserves name-uniqueness of the store. -/
theorem uniqueNames_deleteSecret (l : List SavedSecret) (n : String)
    (h : uniqueNames l) : uniqueNames (deleteSecret l n) := by
  exact h.sublist ((List.filter_sublist l).map (·.name))

/-- Name-uniqueness is preserved by every sequence of vault operations. -/
theorem uniqueNames_applyOps (ops : List SecretOp) :
    ∀ l, uniqueNames l → uniqueNames (applyOps l ops) := by
  induction ops with
  | nil => intro l h; exact h
  | cons op rest ih =>
    intro l h
    rw [applyOps, List.foldl_cons]
    refine ih (applyOp l op) ?_
    cases op with
    | save n v d now => exact uniqueNames_saveSecret n v d now l h
    | del n => exact uniqueNames_deleteSecret l n h

/-- Saving under an existing name replaces the first entry with that name
in place — same length, and the entry found under the name afterwards is
the new value with `createdAt` carried over through `createdAt || now`. -/
theorem saveSecret_existing (n v : String) (d : Option String) (now : Nat)
    (old : SavedSecret) :
    ∀ l : List SavedSecret, l.find? (fun s => s.name == n) = some old →
      (saveSecret l n v d now).find? (fun s => s.name == n) =
        some ⟨n, v, d, some (jsOrNat old.createdAt now), some now⟩
      ∧ (saveSecret l n v d now).length = l.length := by
  intro l
  induction l with
  | nil => intro hfind; simp [List.find?] at hfind
  | cons s rest ih =>
    intro hfind
    by_cases h : (s.name == n) = true
    · simp only [List.find?_cons, h] at hfind
      obtain rfl := Option.some.inj hfind
      rw [saveSecret, if_pos h]
      exact ⟨by simp [List.find?_cons], by simp⟩
    · have hb : (s.name == n) = false := by simpa using h
      simp only [List.find?_cons, hb] at hfind
      rw [saveSecret, if_neg h]
      obtain ⟨h1, h2⟩ := ih hfind
      exact ⟨by simp only [List.find?_cons, hb]; exact h1, by simp [h2]⟩

/-- C10: starting from the empty vault, any sequence of save/delete
operations keeps at most one entry per name; saving an already-present
name replaces that entry in place (same length, original nonzero
`createdAt` preserved, `updatedAt` stamped with the current time) rather
than appending a duplicate; and deleting removes exactly the entries with
the given name, leaving the others in order. -/
theorem secret_store_at_most_one_per_name (ops : List SecretOp)
    (l : List SavedSecret) (n v : String) (d : Option String)
    (now t : Nat) (old : SavedSecret)
    (hfind : l.find? (fun s => s.name == n) = some old)
    (hc : old.createdAt = some t) (ht : t ≠ 0) :
    uniqueNames (applyOps [] ops)
    ∧ (saveSecret l n v d now).length = l.length
    ∧ (saveSecret l n v d now).find? (fun s => s.name == n) =
        some ⟨n, v, d, some t, some now⟩
    ∧ (∀ s, s ∈ deleteSecret l n ↔ s ∈ l ∧ ¬ s.name = n)
    ∧ (deleteSecret l n).Sublist l := by
  obtain ⟨h1, h2⟩ := saveSecret_existing n v d now old l hfind
  refine ⟨uniqueNames_applyOps ops [] (by simp [uniqueNames]), h2, ?_, ?_, ?_⟩
  · rw [h1]
    simp [jsOrNat, hc, ht]
  · intro s
    simp [deleteSecret, List.mem_filter]
  · exact List.filter_sublist l

/-- C10 witness: a concrete operation sequence and a concrete in-place
update of the entry named "a". -/
theorem secret_store_at_most_one_per_name_witness :
    uniqueNames (applyOps [] [.save "a" "v1" none 5, .save "b" "w" none 6,
        .del "a", .save "a" "v2" none 7])
    ∧ (saveSecret [⟨"a", "v1", none, some 5, some 5⟩] "a" "v2" none 9).length =
        [(⟨"a", "v1", none, some 5, some 5⟩ : SavedSecret)].length
    ∧ (saveSecret [⟨"a", "v1", none, some 5, some 5⟩] "a" "v2" none 9).find?
        (fun s => s.name == "a") = some ⟨"a", "v2", none, some 5, some 9⟩
    ∧ (∀ s, s ∈ deleteSecret [⟨"a", "v1", none, some 5, some 5⟩] "a" ↔
        s ∈ [(⟨"a", "v1", none, some 5, some 5⟩ : SavedSecret)] ∧ ¬ s.name = "a")
    ∧ (deleteSecret [⟨"a", "v1", none, some 5, some 5⟩] "a").Sublist
        [(⟨"a", "v1", none, some 5, some 5⟩ : SavedSecret)] :=
  secret_store_at_most_one_per_name
    [.save "a" "v1" none 5, .save "b" "w" none 6, .del "a", .save "a" "v2" none 7]
    [⟨"a", "v1", none, some 5, some 5⟩] "a" "v2" none 9 5
    ⟨"a", "v1", none, some 5, some 5⟩ rfl rfl (by decide)

/-! ### URL-parser lemmas -/

/-- Unfolding: containment at a cons cell. -/
theorem containsSub_cons (c : Char) (cs pat : List Char) :
    containsSub (c :: cs) pat =
      (strStartsWith (c :: cs) pat || containsSub cs pat) := rfl

/-- Unfolding: leftmost match at a cons cell. -/
theorem findMatch_cons (sep c : Char) (cs : List Char) :
    findMatch sep (c :: cs) =
      match matchAt sep (c :: cs) with
      | some r => some r
      | none => findMatch sep cs := rfl

/-- A literal prefix is stripped by `dropLit`. -/
theorem dropLit_append (pat : List Char) :
    ∀ s, dropLit (pat ++ s) pat = some s := by
  induction pat with
  | nil => intro s; simp [dropLit]
  | cons p ps ih => intro s; simp [dropLit, ih]

/-- A successful `dropLit` decomposes its input. -/
theorem dropLit_eq_some (pat : List Char) :
    ∀ s r, dropLit s pat = some r → s = pat ++ r := by
  induction pat with
  | nil =>
    intro s r h
    simp only [dropLit, Option.some.injEq] at h
    simp [h]
  | cons p ps ih =>
    intro s r h
    cases s with
    | nil => simp [dropLit] at h
    | cons c cs =>
      by_cases hc : (c == p) = true
      · rw [dropLit, if_pos hc] at h
        rw [beq_iff_eq.mp hc]
        simpa using ih cs r h
      · rw [dropLit, if_neg hc] at h
        exact absurd h (by simp)

/-- Lemma: `dropLit` fails where the literal is not a prefix. -/
theorem dropLit_none_of_startsWith_false (pat : List Char) :
    ∀ s, strStartsWith s pat = false → dropLit s pat = none := by
  induction pat with
  | nil => intro s h; simp [strStartsWith] at h
  | cons p ps ih =>
    intro s h
    cases s with
    | nil => rfl
    | cons c cs =>
      by_cases hc : (c == p) = true
      · rw [strStartsWith, hc, Bool.true_and] at h
        rw [dropLit, if_pos hc]
        exact ih cs h
      · rw [dropLit, if_neg hc]

/-- Lemma: `takeSeg1` captures exactly a slash-free run up to the next slash. -/
theorem takeSeg1_no_slash :
    ∀ g z, (∀ c ∈ g, ¬ c = '/') → takeSeg1 (g ++ '/' :: z) = (g, '/' :: z) := by
  intro g
  induction g with
  | nil => intro z _; simp [takeSeg1]
  | cons c g' ih =>
    intro z hg
    have hc : (c == '/') = false := by
      simpa using hg c (List.mem_cons_self c g')
    have hrec := ih z (fun x hx => hg x (List.mem_cons_of_mem c hx))
    simp [takeSeg1, hc, hrec]

/-- Lemma: `takeSeg1` decomposes its input. -/
theorem takeSeg1_decomp : ∀ s : List Char, s = (takeSeg1 s).1 ++ (takeSeg1 s).2 := by
  intro s
  induction s with
  | nil => rfl
  | cons c cs ih =>
    by_cases hc : (c == '/') = true
    · simp [takeSeg1, hc]
    · simp only [takeSeg1, if_neg hc, List.cons_append]
      exact congrArg (c :: ·) ih

/-- Lemma: `takeSeg2` consumes a whole run free of `/` and `.`. -/
theorem takeSeg2_all :
    ∀ g, (∀ c ∈ g, ¬ c = '/' ∧ ¬ c = '.') → takeSeg2 g = (g, []) := by
  intro g
  induction g with
  | nil => intro _; rfl
  | cons c g' ih =>
    intro hg
    obtain ⟨hc1, hc2⟩ := hg c (List.mem_cons_self c g')
    have hc : (c == '/' || c == '.') = false := by simp [hc1, hc2]
    have hrec := ih (fun x hx => hg x (List.mem_cons_of_mem c hx))
    simp [takeSeg2, hc, hrec]

/-- Lemma: `takeSeg2` captures exactly a clean run up to the next `/` or `.`. -/
theorem takeSeg2_stop (c0 : Char) (h0 : c0 = '/' ∨ c0 = '.') :
    ∀ g z, (∀ c ∈ g, ¬ c = '/' ∧ ¬ c = '.') →
      takeSeg2 (g ++ c0 :: z) = (g, c0 :: z) := by
  intro g
  induction g with
  | nil =>
    intro z _
    have hc0 : (c0 == '/' || c0 == '.') = true := by
      rcases h0 with h | h <;> simp [h]
    simp [takeSeg2, hc0]
  | cons c g' ih =>
    intro z hg
    obtain ⟨hc1, hc2⟩ := hg c (List.mem_cons_self c g')
    have hc : (c == '/' || c == '.') = false := by simp [hc1, hc2]
    have hrec := ih z (fun x hx => hg x (List.mem_cons_of_mem c hx))
    simp [takeSeg2, hc, hrec]

/-- The pattern match succeeds on a string of the matched shape,
capturing the owner segment and the clean repo prefix. -/
theorem matchAt_shape (sep : Char) (owner repo z rest2 : List Char)
    (ho : owner ≠ []) (hos : ∀ c ∈ owner, ¬ c = '/') (hr : repo ≠ [])
    (hseg2 : takeSeg2 z = (repo, rest2)) :
    matchAt sep ("github.com".data ++ (sep :: (owner ++ ('/' :: z)))) =
      some (owner, repo) := by
  obtain ⟨o0, owner', rfl⟩ : ∃ o0 owner', owner = o0 :: owner' := by
    cases owner with
    | nil => exact absurd rfl ho
    | cons o0 owner' => exact ⟨o0, owner', rfl⟩
  obtain ⟨r0, repo', rfl⟩ : ∃ r0 repo', repo = r0 :: repo' := by
    cases repo with
    | nil => exact absurd rfl hr
    | cons r0 repo' => exact ⟨r0, repo', rfl⟩
  have hsplit : "github.com".data ++ (sep :: ((o0 :: owner') ++ ('/' :: z))) =
      ("github.com".data ++ [sep]) ++ ((o0 :: owner') ++ ('/' :: z)) := by simp
  have hseg1 := takeSeg1_no_slash (o0 :: owner') z hos
  unfold matchAt
  rw [hsplit, dropLit_append]
  simp only [hseg1, hseg2]

/-- The leftmost-match search skips a position that cannot start the
literal. -/
theorem findMatch_cons_of_ne (sep c : Char) (cs : List Char) (h : ¬ c = 'g') :
    findMatch sep (c :: cs) = findMatch sep cs := by
  have hm : matchAt sep (c :: cs) = none := by
    unfold matchAt
    have hlit : "github.com".data ++ [sep] = 'g' :: ("ithub.com".data ++ [sep]) := rfl
    rw [hlit, dropLit, if_neg (by simpa using h)]
  rw [findMatch_cons, hm]

/-- The leftmost-match search succeeds where the pattern matches. -/
theorem findMatch_of_matchAt (sep : Char) (s : List Char)
    (r : List Char × List Char) (hs : s ≠ []) (h : matchAt sep s = some r) :
    findMatch sep s = some r := by
  cases s with
  | nil => exact absurd rfl hs
  | cons c cs => rw [findMatch_cons, h]

/-- A successful slash-pattern match forces at least two slashes. -/
theorem count_slash_of_matchAt (s : List Char) (r : List Char × List Char)
    (h : matchAt '/' s = some r) : 2 ≤ s.count '/' := by
  unfold matchAt at h
  split at h
  · exact absurd h (by simp)
  next rest hd =>
    have hs := dropLit_eq_some _ _ _ hd
    have hrest := takeSeg1_decomp rest
    split at h
    · exact absurd h (by simp)
    next g1 rest1 hseg =>
      rw [hseg] at hrest
      split at h
      next rest2 =>
        rw [hs, hrest]
        have h0 : List.count '/' "github.com".data = 0 := by decide
        simp [List.count_append, List.count_cons, h0]
        all_goals omega
      · exact absurd h (by simp)

/-- A leftmost slash-pattern match forces at least two slashes. -/
theorem count_slash_of_findMatch :
    ∀ s r, findMatch '/' s = some r → 2 ≤ s.count '/' := by
  intro s
  induction s with
  | nil => intro r h; simp [findMatch] at h
  | cons c cs ih =>
    intro r h
    rw [findMatch_cons] at h
    cases hm : matchAt '/' (c :: cs) with
    | some r' =>
      rw [hm] at h
      exact count_slash_of_matchAt _ _ hm
    | none =>
      rw [hm] at h
      calc 2 ≤ cs.count '/' := ih r h
        _ ≤ (c :: cs).count '/' := by simp [List.count_cons]

/-- A string with fewer than two slashes admits no HTTPS-shaped match. -/
theorem findMatch_slash_none (s : List Char) (h : s.count '/' < 2) :
    findMatch '/' s = none := by
  cases hm : findMatch '/' s with
  | none => rfl
  | some r => exact absurd (count_slash_of_findMatch s r hm) (by omega)

/-- Where the literal occurs nowhere, the leftmost-match search fails. -/
theorem findMatch_none_of_not_contains (sep : Char) :
    ∀ s, containsSub s ("github.com".data ++ [sep]) = false →
      findMatch sep s = none := by
  intro s
  induction s with
  | nil => intro _; rfl
  | cons c cs ih =>
    intro h
    rw [containsSub_cons] at h
    obtain ⟨h1, h2⟩ := Bool.or_eq_false_iff.mp h
    have hm : matchAt sep (c :: cs) = none := by
      unfold matchAt
      rw [dropLit_none_of_startsWith_false _ _ h1]
    rw [findMatch_cons, hm]
    exact ih h2

/-- Replacing a dot-led pattern is a no-op on a dot-free string. -/
theorem replaceFirst_no_dot (p rep : List Char) :
    ∀ l, (∀ c ∈ l, ¬ c = '.') → replaceFirst l ('.' :: p) rep = l := by
  intro l
  induction l with
  | nil => intro _; simp [replaceFirst]
  | cons c cs ih =>
    intro hl
    have hc : (c == '.') = false := by
      simpa using hl c (List.mem_cons_self c cs)
    have hs : strStartsWith (c :: cs) ('.' :: p) = false := by
      simp [strStartsWith, hc]
    simp [replaceFirst, hs, ih (fun x hx => hl x (List.mem_cons_of_mem c hx))]

/-- A slash-free list contains no slash occurrences. -/
theorem count_slash_zero (l : List Char) (h : ∀ c ∈ l, ¬ c = '/') :
    List.count '/' l = 0 :=
  List.count_eq_zero.mpr (fun hmem => h '/' hmem rfl)

/-- The parser on an HTTPS-shaped URL whose repo segment is clean: the
captured groups are the owner and repo segments. -/
theorem parseGitHubUrl_https_shape (owner repo z rest2 : List Char)
    (ho : owner ≠ []) (hos : ∀ c ∈ owner, ¬ c = '/')
    (hr : repo ≠ []) (hrd : ∀ c ∈ repo, ¬ c = '.')
    (hseg2 : takeSeg2 z = (repo, rest2)) :
    parseGitHubUrl ⟨"https://github.com/".data ++ (owner ++ ('/' :: z))⟩ =
      some (⟨owner⟩, ⟨repo⟩) := by
  have hmatch := matchAt_shape '/' owner repo z rest2 ho hos hr hseg2
  have hform : "https://github.com/".data ++ (owner ++ ('/' :: z)) =
      'h' :: 't' :: 't' :: 'p' :: 's' :: ':' :: '/' :: '/' ::
        ("github.com".data ++ ('/' :: (owner ++ ('/' :: z)))) := rfl
  have hcons : "github.com".data ++ ('/' :: (owner ++ ('/' :: z))) =
      'g' :: ("ithub.com".data ++ ('/' :: (owner ++ ('/' :: z)))) := rfl
  have hfind : findMatch '/' ("https://github.com/".data ++ (owner ++ ('/' :: z))) =
      some (owner, repo) := by
    rw [hform, findMatch_cons_of_ne _ _ _ (by decide),
      findMatch_cons_of_ne _ _ _ (by decide),
      findMatch_cons_of_ne _ _ _ (by decide),
      findMatch_cons_of_ne _ _ _ (by decide),
      findMatch_cons_of_ne _ _ _ (by decide),
      findMatch_cons_of_ne _ _ _ (by decide),
      findMatch_cons_of_ne _ _ _ (by decide),
      findMatch_cons_of_ne _ _ _ (by decide)]
    exact findMatch_of_matchAt _ _ _
      (by rw [hcons]; exact List.cons_ne_nil _ _) hmatch
  simp only [parseGitHubUrl, hfind, Option.orElse]
  have hrep : replaceFirst repo ".git".data [] = repo :=
    replaceFirst_no_dot "git".data [] repo hrd
  rw [hrep]

/-- The parser on an SSH-shaped URL whose owner and tail are slash-free:
the HTTPS pattern cannot fire (a single slash), so the SSH pattern's
groups are returned. -/
theorem parseGitHubUrl_ssh_shape (owner repo z rest2 : List Char)
    (ho : owner ≠ []) (hos : ∀ c ∈ owner, ¬ c = '/')
    (hr : repo ≠ []) (hrd : ∀ c ∈ repo, ¬ c = '.')
    (hz : List.count '/' z = 0)
    (hseg2 : takeSeg2 z = (repo, rest2)) :
    parseGitHubUrl ⟨"github.com:".data ++ (owner ++ ('/' :: z))⟩ =
      some (⟨owner⟩, ⟨repo⟩) := by
  have hmatch := matchAt_shape ':' owner repo z rest2 ho hos hr hseg2
  have hform : "github.com:".data ++ (owner ++ ('/' :: z)) =
      "github.com".data ++ (':' :: (owner ++ ('/' :: z))) := rfl
  have hcons : "github.com".data ++ (':' :: (owner ++ ('/' :: z))) =
      'g' :: ("ithub.com".data ++ (':' :: (owner ++ ('/' :: z)))) := rfl
  have hcount : List.count '/' ("github.com:".data ++ (owner ++ ('/' :: z))) < 2 := by
    have h0 : List.count '/' "github.com:".data = 0 := by decide
    simp [List.count_append, List.count_cons, h0, count_slash_zero owner hos, hz]
  have hhttps : findMatch '/' ("github.com:".data ++ (owner ++ ('/' :: z))) = none :=
    findMatch_slash_none _ hcount
  have hssh : findMatch ':' ("github.com:".data ++ (owner ++ ('/' :: z))) =
      some (owner, repo) := by
    rw [hform]
    exact findMatch_of_matchAt _ _ _
      (by rw [hcons]; exact List.cons_ne_nil _ _) hmatch
  simp only [parseGitHubUrl, hhttps, hssh, Option.orElse]
  have hrep : replaceFirst repo ".git".data [] = repo :=
    replaceFirst_no_dot "git".data [] repo hrd
  rw [hrep]

/-- C9 counterexample: the second capture group stops at the first `.`,
so the repo segment `my.repo` is truncated to `my` instead of being
returned whole; and the patterns are unanchored substring searches, so a
URL of neither claimed shape still parses instead of returning null. -/
theorem parse_github_url_cex :
    parseGitHubUrl "https://github.com/o/my.repo" = some ("o", "my")
    ∧ parseGitHubUrl "https://nongithub.com/a/b" = some ("a", "b") :=
  ⟨rfl, rfl⟩

/-- C9 (amended): for every nonempty slash-free owner segment and every
nonempty repo segment free of `/` and `.`, the HTTPS-shaped and
SSH-shaped URLs, with or without a `.git` suffix, parse to the
(owner, repo) pair; the patterns are unanchored, a repo segment is
truncated at its first `.`, and a URL containing neither `github.com/`
nor `github.com:` returns null. -/
theorem parse_github_url_shapes (owner repo : List Char)
    (ho : owner ≠ []) (hos : ∀ c ∈ owner, ¬ c = '/')
    (hr : repo ≠ []) (hrs : ∀ c ∈ repo, ¬ c = '/' ∧ ¬ c = '.') :
    parseGitHubUrl ⟨"https://github.com/".data ++ (owner ++ ('/' :: repo))⟩ =
      some (⟨owner⟩, ⟨repo⟩)
    ∧ parseGitHubUrl ⟨"https://github.com/".data ++
        (owner ++ ('/' :: (repo ++ ".git".data)))⟩ = some (⟨owner⟩, ⟨repo⟩)
    ∧ parseGitHubUrl ⟨"github.com:".data ++ (owner ++ ('/' :: repo))⟩ =
      some (⟨owner⟩, ⟨repo⟩)
    ∧ parseGitHubUrl ⟨"github.com:".data ++
        (owner ++ ('/' :: (repo ++ ".git".data)))⟩ = some (⟨owner⟩, ⟨repo⟩)
    ∧ (∀ u : String, containsSub u.data "github.com/".data = false →
        containsSub u.data "github.com:".data = false →
        parseGitHubUrl u = none) := by
  have hrd : ∀ c ∈ repo, ¬ c = '.' := fun c hc => (hrs c hc).2
  have hrz : List.count '/' repo = 0 :=
    count_slash_zero repo (fun c hc => (hrs c hc).1)
  have hgitz : List.count '/' (repo ++ ".git".data) = 0 := by
    have : List.count '/' ".git".data = 0 := by decide
    simp [List.count_append, hrz, this]
  have hseg2a : takeSeg2 repo = (repo, []) := takeSeg2_all repo hrs
  have hseg2b : takeSeg2 (repo ++ ".git".data) = (repo, ".git".data) :=
    takeSeg2_stop '.' (Or.inr rfl) repo "git".data hrs
  refine ⟨?_, ?_, ?_, ?_, ?_⟩
  · exact parseGitHubUrl_https_shape owner repo repo [] ho hos hr hrd hseg2a
  · exact parseGitHubUrl_https_shape owner repo (repo ++ ".git".data)
      ".git".data ho hos hr hrd hseg2b
  · exact parseGitHubUrl_ssh_shape owner repo repo [] ho hos hr hrd hrz hseg2a
  · exact parseGitHubUrl_ssh_shape owner repo (repo ++ ".git".data)
      ".git".data ho hos hr hrd hgitz hseg2b
  · intro u h1 h2
    have hh : findMatch '/' u.data = none :=
      findMatch_none_of_not_contains '/' u.data h1
    have hs2 : findMatch ':' u.data = none :=
      findMatch_none_of_not_contains ':' u.data h2
    simp only [parseGitHubUrl, hh, hs2, Option.orElse]

/-- C9 (amended) witness: the concrete owner `liyu473` and repo `repo`
in an HTTPS URL and in an SSH URL with `.git`, and a URL carrying the
pattern nowhere. -/
theorem parse_github_url_shapes_witness :
    parseGitHubUrl ⟨"https://github.com/".data ++
        ("liyu473".data ++ ('/' :: "repo".data))⟩ =
      some (⟨"liyu473".data⟩, ⟨"repo".data⟩)
    ∧ parseGitHubUrl ⟨"github.com:".data ++
        ("liyu473".data ++ ('/' :: ("repo".data ++ ".git".data)))⟩ =
      some (⟨"liyu473".data⟩, ⟨"repo".data⟩)
    ∧ parseGitHubUrl "https://gitee.com/a/b" = none := by
  obtain ⟨ha, -, -, hd, he⟩ := parse_github_url_shapes "liyu473".data "repo".data
    (by decide) (by decide) (by decide) (by decide)
  exact ⟨ha, hd, he "https://gitee.com/a/b" (by decide) (by decide)⟩
